import Mathlib

/-!
# Verification of the 2D gravitational N-body engine

Shallow embedding of the physics engine shared by
`simulacionDosCuerpos2D.py` and `simulacionCuatroCuerpos2D.py`:
the `Body` record, the softened pairwise force evaluator
(`accelerations`), the velocity-Verlet integrator (`step_verlet`)
and the center-of-mass frame normalizer (`to_com_frame`).

Real arithmetic stands in for Python floats (the spec's claims are stated
"in exact arithmetic").  The rendering-only fields of `Body`
(`color`, `trail`) play no role in the engine and are omitted.
The module-level constants `G` and `EPS2` become explicit parameters.
-/

/-- A 2D vector, as the two components of the numpy arrays of the source. -/
abbrev Vec2 := ℝ × ℝ

/-- Componentwise division of a vector by a scalar (numpy `vec / c`). -/
noncomputable def vdiv (u : Vec2) (c : ℝ) : Vec2 := (u.1 / c, u.2 / c)

/-- One point mass: position `r`, velocity `v`, mass `m` and the
acceleration cache `a`, exactly the physical fields of `Body` in the
source. -/
structure Body where
  r : Vec2
  v : Vec2
  m : ℝ
  a : Vec2

instance : Inhabited Body := ⟨⟨(0, 0), (0, 0), 0, (0, 0)⟩⟩

/-- `Body.__init__(x, y, vx, vy, m)`: stores position, velocity and mass
verbatim and zeroes the acceleration cache.  (`float(m)` is the identity
here; `color` and `trail` are rendering-only.) -/
noncomputable def Body.init (x y vx vy m : ℝ) : Body :=
  { r := (x, y), v := (vx, vy), m := m, a := (0, 0) }

/-- The softened squared separation `dr[0]*dr[0] + dr[1]*dr[1] + EPS2`
for the pair `(bi, bj)`. -/
noncomputable def dist2 (EPS2 : ℝ) (bi bj : Body) : ℝ :=
  let dr := bj.r - bi.r
  dr.1 * dr.1 + dr.2 * dr.2 + EPS2

/-- The pairwise force vector `fvec = G * mi * mj * dr * inv_r3` of the
inner loop of `accelerations`, with `inv_r = 1/sqrt(dist2)` and
`inv_r3 = inv_r / dist2`. -/
noncomputable def fvec (G EPS2 : ℝ) (bi bj : Body) : Vec2 :=
  let dr := bj.r - bi.r
  let inv_r := 1 / Real.sqrt (dist2 EPS2 bi bj)
  let inv_r3 := inv_r / dist2 EPS2 bi bj
  (G * bi.m * bj.m * inv_r3) • dr

/-- One inner-loop iteration of `accelerations` at the index pair
`p = (i, j)`: `bodies[i].a += fvec / mi; bodies[j].a -= fvec / mj`. -/
noncomputable def applyPair (G EPS2 : ℝ) (bs : List Body) (p : ℕ × ℕ) :
    List Body :=
  let bi := bs.getD p.1 default
  let bj := bs.getD p.2 default
  let f := fvec G EPS2 bi bj
  (bs.set p.1 { bi with a := bi.a + vdiv f bi.m }).set p.2
    { bj with a := bj.a - vdiv f bj.m }

/-- The index pairs visited by the double loop
`for i in range(N-1): for j in range(i+1, N)`. -/
def pairs (n : ℕ) : List (ℕ × ℕ) :=
  (List.range (n - 1)).flatMap fun i =>
    (List.range' (i + 1) (n - (i + 1))).map fun j => (i, j)

/-- The reset loop `for b in bodies: b.a[:] = 0.0`. -/
noncomputable def resetAcc (bs : List Body) : List Body :=
  bs.map fun b => { b with a := (0, 0) }

/-- `accelerations(bodies)`: reset every acceleration to zero, then apply
the pairwise update once for every unordered pair `i < j`. -/
noncomputable def accelerations (G EPS2 : ℝ) (bs : List Body) : List Body :=
  (pairs bs.length).foldl (applyPair G EPS2) (resetAcc bs)

/-- `step_verlet(bodies, dt)`: one velocity-Verlet (leapfrog) step. -/
noncomputable def step_verlet (G EPS2 : ℝ) (bs : List Body) (dt : ℝ) :
    List Body :=
  let bs1 := accelerations G EPS2 bs
  let bs2 := bs1.map fun b =>
    let v_half := b.v + (0.5 * dt) • b.a
    { b with r := b.r + dt • v_half, v := v_half }
  let bs3 := accelerations G EPS2 bs2
  bs3.map fun b => { b with v := b.v + (0.5 * dt) • b.a }

/-- `to_com_frame(bodies)`: subtract the mass-weighted mean position and
velocity from every body. -/
noncomputable def to_com_frame (bs : List Body) : List Body :=
  let M := (bs.map Body.m).sum
  let r_com := vdiv ((bs.map fun b => b.m • b.r).sum) M
  let v_com := vdiv ((bs.map fun b => b.m • b.v).sum) M
  bs.map fun b => { b with r := b.r - r_com, v := b.v - v_com }

/-- Total mass `M = Σ mass_i` of a system. -/
noncomputable def totalMass (bs : List Body) : ℝ := (bs.map Body.m).sum

/-- Total linear momentum `Σ mass_i • velocity_i`. -/
noncomputable def totalMomentum (bs : List Body) : Vec2 :=
  (bs.map fun b => b.m • b.v).sum

/-- Mass-weighted sum of positions `Σ mass_i • position_i`. -/
noncomputable def weightedPos (bs : List Body) : Vec2 :=
  (bs.map fun b => b.m • b.r).sum

/-- Euclidean magnitude of a 2D vector. -/
noncomputable def vmag (u : Vec2) : ℝ := Real.sqrt (u.1 * u.1 + u.2 * u.2)

/-- The engine operations a consumer may invoke on the body store, used to
state that no sequence of them ever writes a mass. -/
inductive SimOp where
  | forces : SimOp
  | stepOp : ℝ → SimOp
  | comOp : SimOp

/-- Run one engine operation on the body store. -/
noncomputable def runOp (G EPS2 : ℝ) (bs : List Body) : SimOp → List Body
  | SimOp.forces => accelerations G EPS2 bs
  | SimOp.stepOp dt => step_verlet G EPS2 bs dt
  | SimOp.comOp => to_com_frame bs

/-- The net contribution of the inner-loop iteration at pair `p` to the
acceleration of body `k`: `+fvec/mi` at `k = i`, `-fvec/mj` at `k = j`,
zero elsewhere. -/
noncomputable def contrib (G EPS2 : ℝ) (bs : List Body) (p : ℕ × ℕ)
    (k : ℕ) : Vec2 :=
  let f := fvec G EPS2 (bs.getD p.1 default) (bs.getD p.2 default)
  if k = p.1 then vdiv f (bs.getD p.1 default).m
  else if k = p.2 then -vdiv f (bs.getD p.2 default).m
  else 0

/-- A pair `(i, j)` is one the double loop can emit for a list of length
`n`: `i < j < n`. -/
def validPair (n : ℕ) (p : ℕ × ℕ) : Prop := p.1 < p.2 ∧ p.2 < n

/-- The body store after the first half of a leapfrog step, written
directly in terms of the input state: every velocity is at the half-step
value `v + 0.5*dt*a(t)` and every position has advanced by `dt` times
that half-step velocity.  Used to state what one `step_verlet` call does. -/
noncomputable def driftBodies (G EPS2 dt : ℝ) (bs : List Body) : List Body :=
  (List.range bs.length).map fun k =>
    let b := bs.getD k default
    let aOld := ((accelerations G EPS2 bs).getD k default).a
    let v_half := b.v + (0.5 * dt) • aOld
    { b with r := b.r + dt • v_half, v := v_half }

/-- A concrete unit-mass body, used to instantiate theorems. -/
noncomputable def demoBody : Body := Body.init 0 0 0 0 1

/-- A concrete one-body system, used to instantiate theorems. -/
noncomputable def demoSys : List Body := [demoBody]

/-! ## Generic list-sum helper lemmas -/

theorem list_sum_map_add {α M : Type} [AddCommMonoid M] (l : List α)
    (f g : α → M) :
    (l.map fun x => f x + g x).sum = (l.map f).sum + (l.map g).sum := by
  induction l with
  | nil => simp
  | cons x l ih =>
    simp only [List.map_cons, List.sum_cons, ih]
    abel

theorem list_sum_flatMap {M : Type} [AddCommMonoid M] (l : List ℕ)
    (g : ℕ → List (ℕ × ℕ)) (f : ℕ × ℕ → M) :
    ((l.flatMap g).map f).sum = (l.map fun i => ((g i).map f).sum).sum := by
  induction l with
  | nil => simp
  | cons x l ih => simp [List.flatMap_cons, ih]

theorem sum_map_range {M : Type} [AddCommMonoid M] (f : ℕ → M) (n : ℕ) :
    ((List.range n).map f).sum = ∑ i ∈ Finset.range n, f i := by
  induction n with
  | zero => simp
  | succ n ih =>
    rw [List.range_succ, List.map_append, List.sum_append,
      Finset.sum_range_succ, ih]
    simp

theorem sum_map_range' {M : Type} [AddCommMonoid M] (f : ℕ → M) (a l : ℕ) :
    ((List.range' a l).map f).sum = ∑ i ∈ Finset.Ico a (a + l), f i := by
  induction l generalizing a with
  | zero => simp
  | succ l ih =>
    have h2 : a + 1 + l = a + (l + 1) := by omega
    have hb : a < a + (l + 1) := by omega
    rw [List.range'_succ, List.map_cons, List.sum_cons, ih, h2,
      Finset.sum_eq_sum_Ico_succ_bot hb]

theorem sum_map_getD {M : Type} [AddCommMonoid M] (f : Body → M)
    (bs : List Body) :
    (bs.map f).sum = ∑ k ∈ Finset.range bs.length, f (bs.getD k default) := by
  induction bs with
  | nil => simp
  | cons b bs ih =>
    rw [List.map_cons, List.sum_cons, ih, List.length_cons,
      Finset.sum_range_succ']
    simp [List.getD_cons_succ, List.getD_cons_zero, add_comm]

theorem finset_sum_list_sum_comm {M : Type} [AddCommMonoid M]
    (s : Finset ℕ) (P : List (ℕ × ℕ)) (g : ℕ → ℕ × ℕ → M) :
    ∑ k ∈ s, (P.map fun p => g k p).sum
      = (P.map fun p => ∑ k ∈ s, g k p).sum := by
  induction P with
  | nil => simp
  | cons p P ih => simp [Finset.sum_add_distrib, ih]

/-! ## Index bookkeeping for the pairwise update -/

theorem length_applyPair (G EPS2 : ℝ) (bs : List Body) (p : ℕ × ℕ) :
    (applyPair G EPS2 bs p).length = bs.length := by
  simp [applyPair]

theorem length_foldl_applyPair (G EPS2 : ℝ) (P : List (ℕ × ℕ))
    (bs : List Body) :
    (P.foldl (applyPair G EPS2) bs).length = bs.length := by
  induction P generalizing bs with
  | nil => rfl
  | cons p P ih => rw [List.foldl_cons, ih, length_applyPair]

theorem length_resetAcc (bs : List Body) : (resetAcc bs).length = bs.length := by
  simp [resetAcc]

theorem length_accelerations (G EPS2 : ℝ) (bs : List Body) :
    (accelerations G EPS2 bs).length = bs.length := by
  rw [accelerations, length_foldl_applyPair, length_resetAcc]

theorem length_step_verlet (G EPS2 : ℝ) (bs : List Body) (dt : ℝ) :
    (step_verlet G EPS2 bs dt).length = bs.length := by
  rw [step_verlet]
  simp only [List.length_map, length_accelerations]

theorem length_to_com_frame (bs : List Body) :
    (to_com_frame bs).length = bs.length := by
  simp [to_com_frame]

theorem getD_map_body (g : Body → Body) (bs : List Body) (k : ℕ)
    (hk : k < bs.length) :
    (bs.map g).getD k default = g (bs.getD k default) := by
  rw [List.getD_eq_getElem (bs.map g) default (by simpa using hk),
    List.getD_eq_getElem bs default hk]
  simp

theorem getD_resetAcc (bs : List Body) (k : ℕ) :
    (resetAcc bs).getD k default =
      { bs.getD k default with a := (0, 0) } := by
  by_cases hk : k < bs.length
  · rw [resetAcc, getD_map_body _ _ _ hk]
  · have h1 : bs.length ≤ k := by omega
    have h2 : (resetAcc bs).length ≤ k := by rw [length_resetAcc]; omega
    rw [List.getD_eq_default _ _ h2, List.getD_eq_default _ _ h1]
    rfl

theorem applyPair_getD_fst (G EPS2 : ℝ) (bs : List Body) (p : ℕ × ℕ)
    (hv : validPair bs.length p) :
    (applyPair G EPS2 bs p).getD p.1 default =
      (let bi := bs.getD p.1 default
       let bj := bs.getD p.2 default
       { bi with a := bi.a + vdiv (fvec G EPS2 bi bj) bi.m }) := by
  obtain ⟨h12, h2n⟩ := hv
  have h1n : p.1 < bs.length := lt_trans h12 h2n
  rw [applyPair, List.getD_eq_getElem?_getD,
    List.getElem?_set_ne (Ne.symm (Nat.ne_of_lt h12)),
    List.getElem?_set_self h1n]
  rfl

theorem applyPair_getD_snd (G EPS2 : ℝ) (bs : List Body) (p : ℕ × ℕ)
    (hv : validPair bs.length p) :
    (applyPair G EPS2 bs p).getD p.2 default =
      (let bi := bs.getD p.1 default
       let bj := bs.getD p.2 default
       { bj with a := bj.a - vdiv (fvec G EPS2 bi bj) bj.m }) := by
  obtain ⟨h12, h2n⟩ := hv
  rw [applyPair, List.getD_eq_getElem?_getD,
    List.getElem?_set_self (by simpa using h2n)]
  rfl

theorem applyPair_getD_other (G EPS2 : ℝ) (bs : List Body) (p : ℕ × ℕ)
    (k : ℕ) (hk1 : k ≠ p.1) (hk2 : k ≠ p.2) :
    (applyPair G EPS2 bs p).getD k default = bs.getD k default := by
  rw [applyPair, List.getD_eq_getElem?_getD,
    List.getElem?_set_ne (Ne.symm hk2), List.getElem?_set_ne (Ne.symm hk1),
    List.getD_eq_getElem?_getD]

theorem applyPair_fields (G EPS2 : ℝ) (bs : List Body) (p : ℕ × ℕ)
    (hv : validPair bs.length p) (k : ℕ) :
    ((applyPair G EPS2 bs p).getD k default).r = (bs.getD k default).r ∧
    ((applyPair G EPS2 bs p).getD k default).v = (bs.getD k default).v ∧
    ((applyPair G EPS2 bs p).getD k default).m = (bs.getD k default).m := by
  by_cases hk1 : k = p.1
  · subst hk1
    rw [applyPair_getD_fst G EPS2 bs p hv]
    exact ⟨rfl, rfl, rfl⟩
  · by_cases hk2 : k = p.2
    · subst hk2
      rw [applyPair_getD_snd G EPS2 bs p hv]
      exact ⟨rfl, rfl, rfl⟩
    · rw [applyPair_getD_other G EPS2 bs p k hk1 hk2]
      exact ⟨rfl, rfl, rfl⟩

theorem applyPair_a (G EPS2 : ℝ) (bs : List Body) (p : ℕ × ℕ)
    (hv : validPair bs.length p) (k : ℕ) :
    ((applyPair G EPS2 bs p).getD k default).a =
      (bs.getD k default).a + contrib G EPS2 bs p k := by
  have h12 : p.1 ≠ p.2 := Nat.ne_of_lt hv.1
  by_cases hk1 : k = p.1
  · subst hk1
    rw [applyPair_getD_fst G EPS2 bs p hv, contrib]
    simp [if_pos rfl]
  · by_cases hk2 : k = p.2
    · subst hk2
      rw [applyPair_getD_snd G EPS2 bs p hv, contrib]
      simp only [if_neg hk1, if_pos rfl]
      show _ - _ = _ + -_
      rw [sub_eq_add_neg]
    · rw [applyPair_getD_other G EPS2 bs p k hk1 hk2, contrib]
      simp [if_neg hk1, if_neg hk2]

theorem fvec_congr (G EPS2 : ℝ) (bi1 bj1 bi2 bj2 : Body)
    (hd : bj1.r - bi1.r = bj2.r - bi2.r) (hmi : bi1.m = bi2.m)
    (hmj : bj1.m = bj2.m) :
    fvec G EPS2 bi1 bj1 = fvec G EPS2 bi2 bj2 := by
  simp only [fvec, dist2]
  rw [hd, hmi, hmj]

theorem contrib_congr (G EPS2 : ℝ) (bs1 bs2 : List Body) (p : ℕ × ℕ) (k : ℕ)
    (hd : (bs1.getD p.2 default).r - (bs1.getD p.1 default).r
        = (bs2.getD p.2 default).r - (bs2.getD p.1 default).r)
    (hmi : (bs1.getD p.1 default).m = (bs2.getD p.1 default).m)
    (hmj : (bs1.getD p.2 default).m = (bs2.getD p.2 default).m) :
    contrib G EPS2 bs1 p k = contrib G EPS2 bs2 p k := by
  simp only [contrib]
  rw [fvec_congr G EPS2 _ _ _ _ hd hmi hmj, hmi, hmj]

theorem foldl_applyPair_fields (G EPS2 : ℝ) (P : List (ℕ × ℕ))
    (bs : List Body) (hP : ∀ p ∈ P, validPair bs.length p) (k : ℕ) :
    (((P.foldl (applyPair G EPS2) bs).getD k default).r
        = (bs.getD k default).r) ∧
    (((P.foldl (applyPair G EPS2) bs).getD k default).v
        = (bs.getD k default).v) ∧
    (((P.foldl (applyPair G EPS2) bs).getD k default).m
        = (bs.getD k default).m) := by
  induction P generalizing bs with
  | nil => exact ⟨rfl, rfl, rfl⟩
  | cons p P ih =>
    have hp : validPair bs.length p := hP p (List.mem_cons_self p P)
    have hP2 : ∀ q ∈ P, validPair (applyPair G EPS2 bs p).length q := by
      intro q hq
      rw [length_applyPair]
      exact hP q (List.mem_cons_of_mem p hq)
    have h1 := applyPair_fields G EPS2 bs p hp k
    have h2 := ih (applyPair G EPS2 bs p) hP2
    rw [List.foldl_cons]
    exact ⟨h2.1.trans h1.1, h2.2.1.trans h1.2.1, h2.2.2.trans h1.2.2⟩

theorem foldl_applyPair_a (G EPS2 : ℝ) (P : List (ℕ × ℕ))
    (bs : List Body) (hP : ∀ p ∈ P, validPair bs.length p) (k : ℕ) :
    ((P.foldl (applyPair G EPS2) bs).getD k default).a
      = (bs.getD k default).a
        + (P.map fun p => contrib G EPS2 bs p k).sum := by
  induction P generalizing bs with
  | nil => simp
  | cons p P ih =>
    have hp : validPair bs.length p := hP p (List.mem_cons_self p P)
    have hP2 : ∀ q ∈ P, validPair (applyPair G EPS2 bs p).length q := by
      intro q hq
      rw [length_applyPair]
      exact hP q (List.mem_cons_of_mem p hq)
    have hcongr : ∀ q : ℕ × ℕ, ∀ j : ℕ,
        contrib G EPS2 (applyPair G EPS2 bs p) q j = contrib G EPS2 bs q j := by
      intro q j
      have hf1 := applyPair_fields G EPS2 bs p hp q.1
      have hf2 := applyPair_fields G EPS2 bs p hp q.2
      exact contrib_congr G EPS2 _ _ q j (by rw [hf1.1, hf2.1]) hf1.2.2 hf2.2.2
    have hmap : (P.map fun q => contrib G EPS2 (applyPair G EPS2 bs p) q k)
        = P.map fun q => contrib G EPS2 bs q k :=
      List.map_congr_left fun q _ => hcongr q k
    rw [List.foldl_cons, ih (applyPair G EPS2 bs p) hP2, hmap,
      applyPair_a G EPS2 bs p hp k, List.map_cons, List.sum_cons, add_assoc]

theorem pairs_valid (n : ℕ) : ∀ p ∈ pairs n, validPair n p := by
  intro p hp
  simp only [pairs, List.mem_flatMap, List.mem_map, List.mem_range,
    List.mem_range'_1] at hp
  obtain ⟨i, hi, j, hj, rfl⟩ := hp
  exact ⟨by omega, by omega⟩

theorem accelerations_fields (G EPS2 : ℝ) (bs : List Body) (k : ℕ) :
    (((accelerations G EPS2 bs).getD k default).r = (bs.getD k default).r) ∧
    (((accelerations G EPS2 bs).getD k default).v = (bs.getD k default).v) ∧
    (((accelerations G EPS2 bs).getD k default).m = (bs.getD k default).m) := by
  have hP : ∀ p ∈ pairs bs.length, validPair (resetAcc bs).length p := by
    intro p hp
    rw [length_resetAcc]
    exact pairs_valid bs.length p hp
  have h := foldl_applyPair_fields G EPS2 (pairs bs.length) (resetAcc bs) hP k
  rw [accelerations]
  rw [getD_resetAcc] at h
  exact h

theorem accelerations_a_sum (G EPS2 : ℝ) (bs : List Body) (k : ℕ) :
    ((accelerations G EPS2 bs).getD k default).a
      = ((pairs bs.length).map fun p => contrib G EPS2 bs p k).sum := by
  have hP : ∀ p ∈ pairs bs.length, validPair (resetAcc bs).length p := by
    intro p hp
    rw [length_resetAcc]
    exact pairs_valid bs.length p hp
  have h := foldl_applyPair_a G EPS2 (pairs bs.length) (resetAcc bs) hP k
  rw [accelerations, h, getD_resetAcc]
  have hz : ((0 : ℝ), (0 : ℝ)) = (0 : Vec2) := rfl
  simp only [hz, zero_add]
  congr 1
  refine List.map_congr_left fun p _ => ?_
  refine contrib_congr G EPS2 _ _ p k ?_ ?_ ?_ <;>
    simp only [getD_resetAcc]

theorem contrib_split (G EPS2 : ℝ) (bs : List Body) (i j k : ℕ)
    (hij : i < j) :
    contrib G EPS2 bs (i, j) k
      = (if k = i then
          vdiv (fvec G EPS2 (bs.getD i default) (bs.getD j default))
            (bs.getD i default).m
         else 0)
        + (if k = j then
            -vdiv (fvec G EPS2 (bs.getD i default) (bs.getD j default))
              (bs.getD j default).m
           else 0) := by
  simp only [contrib]
  by_cases h1 : k = i
  · rw [if_pos h1, if_pos h1, if_neg (by omega), add_zero]
  · rw [if_neg h1, if_neg h1, zero_add]

theorem accelerations_a_closed (G EPS2 : ℝ) (bs : List Body) (k : ℕ)
    (hk : k < bs.length) :
    ((accelerations G EPS2 bs).getD k default).a
      = (∑ j ∈ Finset.Ico (k + 1) bs.length,
          vdiv (fvec G EPS2 (bs.getD k default) (bs.getD j default))
            (bs.getD k default).m)
        - ∑ i ∈ Finset.range k,
            vdiv (fvec G EPS2 (bs.getD i default) (bs.getD k default))
              (bs.getD k default).m := by
  rw [accelerations_a_sum, pairs, list_sum_flatMap]
  simp only [List.map_map, Function.comp_def]
  rw [sum_map_range]
  have hstep1 : ∀ i ∈ Finset.range (bs.length - 1),
      ((List.range' (i + 1) (bs.length - (i + 1))).map
        fun j => contrib G EPS2 bs (i, j) k).sum
      = ∑ j ∈ Finset.Ico (i + 1) bs.length,
          ((if k = i then
              vdiv (fvec G EPS2 (bs.getD i default) (bs.getD j default))
                (bs.getD i default).m
            else 0)
           + (if k = j then
               -vdiv (fvec G EPS2 (bs.getD i default) (bs.getD j default))
                 (bs.getD j default).m
              else 0)) := by
    intro i hi
    have hi2 : i < bs.length - 1 := Finset.mem_range.mp hi
    have hb : i + 1 + (bs.length - (i + 1)) = bs.length := by omega
    rw [sum_map_range', hb]
    refine Finset.sum_congr rfl fun j hj => ?_
    exact contrib_split G EPS2 bs i j k (by
      have := Finset.mem_Ico.mp hj
      omega)
  rw [Finset.sum_congr rfl hstep1]
  simp only [Finset.sum_add_distrib]
  have hS1 : (∑ i ∈ Finset.range (bs.length - 1),
      ∑ j ∈ Finset.Ico (i + 1) bs.length,
        (if k = i then
          vdiv (fvec G EPS2 (bs.getD i default) (bs.getD j default))
            (bs.getD i default).m
         else 0))
      = ∑ j ∈ Finset.Ico (k + 1) bs.length,
          vdiv (fvec G EPS2 (bs.getD k default) (bs.getD j default))
            (bs.getD k default).m := by
    have hcongr : ∀ i ∈ Finset.range (bs.length - 1),
        (∑ j ∈ Finset.Ico (i + 1) bs.length,
          (if k = i then
            vdiv (fvec G EPS2 (bs.getD i default) (bs.getD j default))
              (bs.getD i default).m
           else 0))
        = (if k = i then
            ∑ j ∈ Finset.Ico (k + 1) bs.length,
              vdiv (fvec G EPS2 (bs.getD k default) (bs.getD j default))
                (bs.getD k default).m
           else 0) := by
      intro i hi
      by_cases h : k = i
      · subst h
        simp
      · simp [h]
    rw [Finset.sum_congr rfl hcongr, Finset.sum_ite_eq]
    by_cases h2 : k ∈ Finset.range (bs.length - 1)
    · rw [if_pos h2]
    · rw [if_neg h2]
      have hnk : ¬k < bs.length - 1 := fun h => h2 (Finset.mem_range.mpr h)
      have hkn : k + 1 = bs.length := by omega
      rw [← hkn, Finset.Ico_self, Finset.sum_empty]
  have hS2 : (∑ i ∈ Finset.range (bs.length - 1),
      ∑ j ∈ Finset.Ico (i + 1) bs.length,
        (if k = j then
          -vdiv (fvec G EPS2 (bs.getD i default) (bs.getD j default))
            (bs.getD j default).m
         else 0))
      = -∑ i ∈ Finset.range k,
          vdiv (fvec G EPS2 (bs.getD i default) (bs.getD k default))
            (bs.getD k default).m := by
    have hcongr : ∀ i ∈ Finset.range (bs.length - 1),
        (∑ j ∈ Finset.Ico (i + 1) bs.length,
          (if k = j then
            -vdiv (fvec G EPS2 (bs.getD i default) (bs.getD j default))
              (bs.getD j default).m
           else 0))
        = (if i ∈ Finset.range k then
            -vdiv (fvec G EPS2 (bs.getD i default) (bs.getD k default))
              (bs.getD k default).m
           else 0) := by
      intro i hi
      rw [Finset.sum_ite_eq]
      by_cases h : i < k
      · rw [if_pos (Finset.mem_Ico.mpr (by omega)),
          if_pos (Finset.mem_range.mpr h)]
      · rw [if_neg (fun hmem => h (by
            have := Finset.mem_Ico.mp hmem
            omega)),
          if_neg (fun hmem => h (Finset.mem_range.mp hmem))]
    rw [Finset.sum_congr rfl hcongr, Finset.sum_ite_mem]
    have hinter : Finset.range (bs.length - 1) ∩ Finset.range k
        = Finset.range k := by
      ext x
      simp only [Finset.mem_inter, Finset.mem_range]
      omega
    rw [hinter, Finset.sum_neg_distrib]
  rw [hS1, hS2, sub_eq_add_neg]

theorem accelerations_a_congr (G EPS2 : ℝ) (bs1 bs2 : List Body)
    (hlen : bs1.length = bs2.length)
    (hd : ∀ i j, i < bs1.length → j < bs1.length →
        (bs1.getD j default).r - (bs1.getD i default).r
          = (bs2.getD j default).r - (bs2.getD i default).r)
    (hm : ∀ i, i < bs1.length →
        (bs1.getD i default).m = (bs2.getD i default).m) (k : ℕ) :
    ((accelerations G EPS2 bs1).getD k default).a
      = ((accelerations G EPS2 bs2).getD k default).a := by
  rw [accelerations_a_sum, accelerations_a_sum, ← hlen]
  refine congrArg List.sum (List.map_congr_left fun p hp => ?_)
  have hv := pairs_valid bs1.length p hp
  exact contrib_congr G EPS2 bs1 bs2 p k
    (hd p.1 p.2 (lt_trans hv.1 hv.2) hv.2)
    (hm p.1 (lt_trans hv.1 hv.2)) (hm p.2 hv.2)

theorem getD_map_range (g : ℕ → Body) (n k : ℕ) (hk : k < n) :
    ((List.range n).map g).getD k default = g k := by
  rw [List.getD_eq_getElem ((List.range n).map g) default (by simpa using hk)]
  simp

theorem length_driftBodies (G EPS2 dt : ℝ) (bs : List Body) :
    (driftBodies G EPS2 dt bs).length = bs.length := by
  simp [driftBodies]

theorem Body.ext2 (b1 b2 : Body) (hr : b1.r = b2.r) (hv : b1.v = b2.v)
    (hm : b1.m = b2.m) (ha : b1.a = b2.a) : b1 = b2 := by
  cases b1
  cases b2
  dsimp only at hr hv hm ha
  subst hr
  subst hv
  subst hm
  subst ha
  rfl

theorem accelerations_getD_eq (G EPS2 : ℝ) (bs : List Body) (k : ℕ) :
    (accelerations G EPS2 bs).getD k default =
      { r := (bs.getD k default).r, v := (bs.getD k default).v,
        m := (bs.getD k default).m,
        a := ((accelerations G EPS2 bs).getD k default).a } := by
  obtain ⟨hr, hv, hm⟩ := accelerations_fields G EPS2 bs k
  exact Body.ext2 _ _ hr hv hm rfl

/-- **C1.** One call of the integrator `step_verlet(bodies, dt)` with
`dt > 0` performs exactly the leapfrog sequence: with `aOld` the
accelerations evaluated at the current positions, each velocity becomes
the half-step value `v + 0.5*dt*aOld`, each position advances by `dt`
times that half-step velocity, accelerations `aNew` are re-evaluated at
the new positions (`driftBodies`), and each velocity is completed to
`v_half + 0.5*dt*aNew`.  On return the acceleration cache holds the
post-step (new-position) accelerations `aNew` — never the half-step
velocity — and the list length (the set of bodies) is preserved. -/
theorem step_verlet_one_step (G EPS2 dt : ℝ) (bs : List Body)
    (hdt : 0 < dt) (k : ℕ) (hk : k < bs.length) :
    (step_verlet G EPS2 bs dt).length = bs.length ∧
    (step_verlet G EPS2 bs dt).getD k default =
      (let b := bs.getD k default
       let aOld := ((accelerations G EPS2 bs).getD k default).a
       let v_half := b.v + (0.5 * dt) • aOld
       let aNew :=
         ((accelerations G EPS2 (driftBodies G EPS2 dt bs)).getD k default).a
       { r := b.r + dt • v_half, v := v_half + (0.5 * dt) • aNew,
         m := b.m, a := aNew }) := by
  refine ⟨length_step_verlet G EPS2 bs dt, ?_⟩
  have hstep : step_verlet G EPS2 bs dt
      = (accelerations G EPS2 ((accelerations G EPS2 bs).map fun b =>
          { b with r := b.r + dt • (b.v + (0.5 * dt) • b.a),
                   v := b.v + (0.5 * dt) • b.a })).map
          fun b => { b with v := b.v + (0.5 * dt) • b.a } := rfl
  rw [hstep]
  set B2 : List Body := (accelerations G EPS2 bs).map fun b =>
      { b with r := b.r + dt • (b.v + (0.5 * dt) • b.a),
               v := b.v + (0.5 * dt) • b.a } with hB2def
  have hlenB2 : B2.length = bs.length := by
    rw [hB2def, List.length_map, length_accelerations]
  have hB2j : ∀ j, j < bs.length →
      B2.getD j default =
        { r := (bs.getD j default).r
            + dt • ((bs.getD j default).v
              + (0.5 * dt) • ((accelerations G EPS2 bs).getD j default).a),
          v := (bs.getD j default).v
            + (0.5 * dt) • ((accelerations G EPS2 bs).getD j default).a,
          m := (bs.getD j default).m,
          a := ((accelerations G EPS2 bs).getD j default).a } := by
    intro j hj
    have hj2 : j < (accelerations G EPS2 bs).length := by
      rw [length_accelerations]; exact hj
    rw [hB2def, getD_map_body _ _ _ hj2, accelerations_getD_eq G EPS2 bs j]
  have hdriftj : ∀ j, j < bs.length →
      (driftBodies G EPS2 dt bs).getD j default =
        { r := (bs.getD j default).r
            + dt • ((bs.getD j default).v
              + (0.5 * dt) • ((accelerations G EPS2 bs).getD j default).a),
          v := (bs.getD j default).v
            + (0.5 * dt) • ((accelerations G EPS2 bs).getD j default).a,
          m := (bs.getD j default).m,
          a := (bs.getD j default).a } := by
    intro j hj
    rw [driftBodies, getD_map_range _ _ _ hj]
  have hcongr : ∀ j,
      ((accelerations G EPS2 B2).getD j default).a
      = ((accelerations G EPS2 (driftBodies G EPS2 dt bs)).getD j
          default).a := by
    refine accelerations_a_congr G EPS2 _ _ ?_ ?_ ?_
    · rw [hlenB2, length_driftBodies]
    · intro i j hi hj
      rw [hlenB2] at hi hj
      rw [hB2j i hi, hB2j j hj, hdriftj i hi, hdriftj j hj]
    · intro i hi
      rw [hlenB2] at hi
      rw [hB2j i hi, hdriftj i hi]
  have hk3 : k < (accelerations G EPS2 B2).length := by
    rw [length_accelerations, hlenB2]; exact hk
  rw [getD_map_body _ _ _ hk3, accelerations_getD_eq G EPS2 B2 k, hcongr k,
    hB2j k hk]

theorem dist2_pos (EPS2 : ℝ) (hE : 0 < EPS2) (bi bj : Body) :
    0 < dist2 EPS2 bi bj := by
  have h1 : 0 ≤ (bj.r - bi.r).1 * (bj.r - bi.r).1 := mul_self_nonneg _
  have h2 : 0 ≤ (bj.r - bi.r).2 * (bj.r - bi.r).2 := mul_self_nonneg _
  rw [dist2]
  linarith

theorem fvec_spec_form (G EPS2 : ℝ) (hE : 0 < EPS2) (bi bj : Body) :
    fvec G EPS2 bi bj
      = (G * bi.m * bj.m / Real.sqrt (dist2 EPS2 bi bj ^ 3))
          • (bj.r - bi.r) := by
  have hd2 : 0 < dist2 EPS2 bi bj := dist2_pos EPS2 hE bi bj
  have hs : 0 < Real.sqrt (dist2 EPS2 bi bj) := Real.sqrt_pos.mpr hd2
  have hcube : Real.sqrt (dist2 EPS2 bi bj ^ 3)
      = dist2 EPS2 bi bj * Real.sqrt (dist2 EPS2 bi bj) := by
    have h3 : dist2 EPS2 bi bj ^ 3
        = dist2 EPS2 bi bj ^ 2 * dist2 EPS2 bi bj := by ring
    rw [h3, Real.sqrt_mul (sq_nonneg _), Real.sqrt_sq (le_of_lt hd2)]
  have hs0 : Real.sqrt (dist2 EPS2 bi bj) ≠ 0 := ne_of_gt hs
  have hd0 : dist2 EPS2 bi bj ≠ 0 := ne_of_gt hd2
  rw [fvec, hcube]
  congr 1
  field_simp
  left
  ring

/-- **C2.** A force-evaluator call overwrites each body's acceleration:
body `k`'s new cache is exactly the signed sum, over each unordered pair
`(i, j)` with `i < j` visited once, of the pair force
`G*m_i*m_j*(r_j - r_i)/(d2)^(3/2)` (softened squared distance `d2`)
divided by the body's own mass — added where `k` is the lower index and
subtracted where `k` is the upper index; `r`, `v`, `m` are untouched.
The second conjunct states overwrite semantics: the result does not
depend on whatever the acceleration caches held before the call. -/
theorem accelerations_pairwise_spec (G EPS2 : ℝ) (bs : List Body) (k : ℕ)
    (w : Body → Vec2) (hE : 0 < EPS2) (hk : k < bs.length) :
    (accelerations G EPS2 bs).getD k default =
      { r := (bs.getD k default).r, v := (bs.getD k default).v,
        m := (bs.getD k default).m,
        a :=
          (∑ j ∈ Finset.Ico (k + 1) bs.length,
            vdiv
              ((G * (bs.getD k default).m * (bs.getD j default).m
                  / Real.sqrt
                      (dist2 EPS2 (bs.getD k default)
                        (bs.getD j default) ^ 3))
                • ((bs.getD j default).r - (bs.getD k default).r))
              (bs.getD k default).m)
          - ∑ i ∈ Finset.range k,
              vdiv
                ((G * (bs.getD i default).m * (bs.getD k default).m
                    / Real.sqrt
                        (dist2 EPS2 (bs.getD i default)
                          (bs.getD k default) ^ 3))
                  • ((bs.getD k default).r - (bs.getD i default).r))
                (bs.getD k default).m } ∧
    ((accelerations G EPS2 (bs.map fun b => { b with a := w b })).getD k
        default).a
      = ((accelerations G EPS2 bs).getD k default).a := by
  constructor
  · rw [accelerations_getD_eq G EPS2 bs k]
    refine Body.ext2 _ _ rfl rfl rfl ?_
    show ((accelerations G EPS2 bs).getD k default).a = _
    rw [accelerations_a_closed G EPS2 bs k hk]
    congr 1
    · refine Finset.sum_congr rfl fun j hj => ?_
      rw [fvec_spec_form G EPS2 hE]
    · refine Finset.sum_congr rfl fun i hi => ?_
      rw [fvec_spec_form G EPS2 hE]
  · refine accelerations_a_congr G EPS2 _ _ (by simp) ?_ ?_ k
    · intro i j hi hj
      simp only [List.length_map] at hi hj
      rw [getD_map_body _ _ _ hi, getD_map_body _ _ _ hj]
    · intro i hi
      simp only [List.length_map] at hi
      rw [getD_map_body _ _ _ hi]

theorem list_sum_map_smul {α : Type} (l : List α) (c : ℝ) (h : α → Vec2) :
    (l.map fun x => c • h x).sum = c • (l.map h).sum := by
  induction l with
  | nil => simp
  | cons x l ih => simp [ih, smul_add]

theorem getD_mem (bs : List Body) (k : ℕ) (hk : k < bs.length) :
    bs.getD k default ∈ bs := by
  rw [List.getD_eq_getElem bs default hk]
  exact List.getElem_mem hk

/-! ## Mass preservation -/

theorem map_m_eq_of_getD (bs1 bs2 : List Body) (hlen : bs1.length = bs2.length)
    (hmk : ∀ k, k < bs1.length →
      (bs1.getD k default).m = (bs2.getD k default).m) :
    bs1.map Body.m = bs2.map Body.m := by
  apply List.ext_getElem (by simp [hlen])
  intro k h1 h2
  simp only [List.getElem_map]
  have hk : k < bs1.length := by simpa using h1
  have hk2 : k < bs2.length := hlen ▸ hk
  rw [← List.getD_eq_getElem bs1 default hk,
    ← List.getD_eq_getElem bs2 default hk2]
  exact hmk k hk

theorem map_m_accelerations (G EPS2 : ℝ) (bs : List Body) :
    (accelerations G EPS2 bs).map Body.m = bs.map Body.m := by
  refine map_m_eq_of_getD _ _ (length_accelerations G EPS2 bs) fun k hk => ?_
  exact (accelerations_fields G EPS2 bs k).2.2

theorem map_m_step (G EPS2 : ℝ) (bs : List Body) (dt : ℝ) :
    (step_verlet G EPS2 bs dt).map Body.m = bs.map Body.m := by
  have hstep : step_verlet G EPS2 bs dt
      = (accelerations G EPS2 ((accelerations G EPS2 bs).map fun b =>
          { b with r := b.r + dt • (b.v + (0.5 * dt) • b.a),
                   v := b.v + (0.5 * dt) • b.a })).map
          fun b => { b with v := b.v + (0.5 * dt) • b.a } := rfl
  rw [hstep, List.map_map]
  have h1 : (Body.m ∘ fun b => { b with v := b.v + (0.5 * dt) • b.a })
      = Body.m := rfl
  rw [h1, map_m_accelerations, List.map_map]
  have h2 : (Body.m ∘ fun b =>
      { b with r := b.r + dt • (b.v + (0.5 * dt) • b.a),
               v := b.v + (0.5 * dt) • b.a }) = Body.m := rfl
  rw [h2, map_m_accelerations]

theorem map_m_to_com_frame (bs : List Body) :
    (to_com_frame bs).map Body.m = bs.map Body.m := by
  rw [to_com_frame, List.map_map]
  rfl

theorem masses_pos_of_map_m (bs1 bs2 : List Body)
    (h : bs1.map Body.m = bs2.map Body.m) (hp : ∀ b ∈ bs2, 0 < b.m) :
    ∀ b ∈ bs1, 0 < b.m := by
  intro b hb
  have hmem : b.m ∈ bs1.map Body.m := List.mem_map_of_mem Body.m hb
  rw [h] at hmem
  obtain ⟨b2, hb2, he⟩ := List.mem_map.mp hmem
  rw [← he]
  exact hp b2 hb2

/-- **C7.**  Masses are never written: any sequence of engine operations
(force evaluations, integrator steps with arbitrary `dt`, COM
normalizations) leaves every body's mass field, and hence the total mass
`M = Σ mass_i`, exactly as constructed. -/
theorem masses_immutable (G EPS2 : ℝ) (bs : List Body) (ops : List SimOp) :
    ((ops.foldl (runOp G EPS2) bs).map Body.m = bs.map Body.m) ∧
    totalMass (ops.foldl (runOp G EPS2) bs) = totalMass bs := by
  have h1 : (ops.foldl (runOp G EPS2) bs).map Body.m = bs.map Body.m := by
    induction ops generalizing bs with
    | nil => rfl
    | cons op ops ih =>
      rw [List.foldl_cons, ih (runOp G EPS2 bs op)]
      cases op with
      | forces => exact map_m_accelerations G EPS2 bs
      | stepOp dt => exact map_m_step G EPS2 bs dt
      | comOp => exact map_m_to_com_frame bs
  exact ⟨h1, by rw [totalMass, totalMass, h1]⟩

/-! ## Momentum -/

theorem smul_vdiv (f : Vec2) (m : ℝ) (hm : m ≠ 0) : m • vdiv f m = f := by
  rw [vdiv]
  apply Prod.ext
  · show m * (f.1 / m) = f.1
    exact mul_div_cancel₀ f.1 hm
  · show m * (f.2 / m) = f.2
    exact mul_div_cancel₀ f.2 hm

theorem sum_ma_accelerations (G EPS2 : ℝ) (bs : List Body)
    (hm : ∀ b ∈ bs, 0 < b.m) :
    ((accelerations G EPS2 bs).map fun b => b.m • b.a).sum = 0 := by
  rw [sum_map_getD, length_accelerations]
  have hpt : ∀ k ∈ Finset.range bs.length,
      ((accelerations G EPS2 bs).getD k default).m
          • ((accelerations G EPS2 bs).getD k default).a
        = ((pairs bs.length).map fun p =>
            (bs.getD k default).m • contrib G EPS2 bs p k).sum := by
    intro k hk
    rw [(accelerations_fields G EPS2 bs k).2.2, accelerations_a_sum,
      List.smul_sum, List.map_map]
    rfl
  rw [Finset.sum_congr rfl hpt, finset_sum_list_sum_comm]
  have hterm : ∀ p ∈ pairs bs.length,
      (∑ k ∈ Finset.range bs.length,
        (bs.getD k default).m • contrib G EPS2 bs p k) = 0 := by
    intro p hp
    obtain ⟨h12, h2n⟩ := pairs_valid bs.length p hp
    have h1n : p.1 < bs.length := lt_trans h12 h2n
    have hm1 : (bs.getD p.1 default).m ≠ 0 :=
      ne_of_gt (hm _ (getD_mem bs p.1 h1n))
    have hm2 : (bs.getD p.2 default).m ≠ 0 :=
      ne_of_gt (hm _ (getD_mem bs p.2 h2n))
    have hsplit : ∀ k, (bs.getD k default).m • contrib G EPS2 bs p k
        = (if k = p.1 then
            (bs.getD p.1 default).m
              • vdiv (fvec G EPS2 (bs.getD p.1 default)
                  (bs.getD p.2 default)) (bs.getD p.1 default).m
           else 0)
          + (if k = p.2 then
              -((bs.getD p.2 default).m
                • vdiv (fvec G EPS2 (bs.getD p.1 default)
                    (bs.getD p.2 default)) (bs.getD p.2 default).m)
             else 0) := by
      intro k
      rw [contrib]
      by_cases hk1 : k = p.1
      · subst hk1
        rw [if_pos rfl, if_pos rfl, if_neg (by omega), add_zero]
      · by_cases hk2 : k = p.2
        · subst hk2
          rw [if_neg hk1, if_pos rfl, if_neg hk1, if_pos rfl, zero_add,
            smul_neg]
        · rw [if_neg hk1, if_neg hk2, if_neg hk1, if_neg hk2, smul_zero,
            add_zero]
    rw [Finset.sum_congr rfl fun k _ => hsplit k, Finset.sum_add_distrib,
      Finset.sum_ite_eq', Finset.sum_ite_eq',
      if_pos (Finset.mem_range.mpr h1n), if_pos (Finset.mem_range.mpr h2n),
      smul_vdiv _ _ hm1, smul_vdiv _ _ hm2, add_neg_cancel]
  rw [List.map_congr_left hterm]
  simp

theorem totalMomentum_accelerations (G EPS2 : ℝ) (bs : List Body) :
    totalMomentum (accelerations G EPS2 bs) = totalMomentum bs := by
  rw [totalMomentum, totalMomentum, sum_map_getD, sum_map_getD,
    length_accelerations]
  refine Finset.sum_congr rfl fun k _ => ?_
  rw [(accelerations_fields G EPS2 bs k).2.2,
    (accelerations_fields G EPS2 bs k).2.1]

theorem totalMomentum_kick2 (l : List Body) (c dt : ℝ) :
    totalMomentum (l.map fun b =>
        { b with r := b.r + dt • (b.v + c • b.a), v := b.v + c • b.a })
      = totalMomentum l + c • (l.map fun b => b.m • b.a).sum := by
  rw [totalMomentum, totalMomentum, List.map_map]
  have h : ((fun b : Body => b.m • b.v) ∘ fun b : Body =>
      { b with r := b.r + dt • (b.v + c • b.a), v := b.v + c • b.a })
      = fun b : Body => b.m • b.v + c • (b.m • b.a) := by
    funext b
    show b.m • (b.v + c • b.a) = _
    rw [smul_add, smul_comm]
  rw [h, list_sum_map_add, list_sum_map_smul]

theorem totalMomentum_kick (l : List Body) (c : ℝ) :
    totalMomentum (l.map fun b => { b with v := b.v + c • b.a })
      = totalMomentum l + c • (l.map fun b => b.m • b.a).sum := by
  rw [totalMomentum, totalMomentum, List.map_map]
  have h : ((fun b : Body => b.m • b.v) ∘ fun b : Body =>
      { b with v := b.v + c • b.a })
      = fun b : Body => b.m • b.v + c • (b.m • b.a) := by
    funext b
    show b.m • (b.v + c • b.a) = _
    rw [smul_add, smul_comm]
  rw [h, list_sum_map_add, list_sum_map_smul]

theorem masses_pos_accelerations (G EPS2 : ℝ) (bs : List Body)
    (hm : ∀ b ∈ bs, 0 < b.m) : ∀ b ∈ accelerations G EPS2 bs, 0 < b.m :=
  masses_pos_of_map_m _ _ (map_m_accelerations G EPS2 bs) hm

theorem totalMomentum_step (G EPS2 : ℝ) (bs : List Body) (dt : ℝ)
    (hm : ∀ b ∈ bs, 0 < b.m) :
    totalMomentum (step_verlet G EPS2 bs dt) = totalMomentum bs := by
  have hstep : step_verlet G EPS2 bs dt
      = (accelerations G EPS2 ((accelerations G EPS2 bs).map fun b =>
          { b with r := b.r + dt • (b.v + (0.5 * dt) • b.a),
                   v := b.v + (0.5 * dt) • b.a })).map
          fun b => { b with v := b.v + (0.5 * dt) • b.a } := rfl
  have hmB2 : ∀ b ∈ ((accelerations G EPS2 bs).map fun b =>
      { b with r := b.r + dt • (b.v + (0.5 * dt) • b.a),
               v := b.v + (0.5 * dt) • b.a }), 0 < b.m := by
    intro b hb
    obtain ⟨b0, hb0, he⟩ := List.mem_map.mp hb
    have : b.m = b0.m := by rw [← he]
    rw [this]
    exact masses_pos_accelerations G EPS2 bs hm b0 hb0
  rw [hstep, totalMomentum_kick,
    sum_ma_accelerations G EPS2 _ hmB2, smul_zero, add_zero,
    totalMomentum_accelerations, totalMomentum_kick2,
    sum_ma_accelerations G EPS2 bs hm, smul_zero, add_zero,
    totalMomentum_accelerations]

/-! ## Center-of-mass frame -/

theorem list_sum_map_sub {α : Type} (l : List α) (f g : α → Vec2) :
    (l.map fun x => f x - g x).sum = (l.map f).sum - (l.map g).sum := by
  induction l with
  | nil => simp
  | cons x l ih =>
    simp only [List.map_cons, List.sum_cons, ih]
    abel

theorem list_sum_map_const_smul (l : List Body) (c : Vec2) :
    (l.map fun b => b.m • c).sum = (l.map Body.m).sum • c := by
  induction l with
  | nil => simp
  | cons b l ih => simp [ih, add_smul]

theorem sum_m_smul_sub_com (bs : List Body) (sel : Body → Vec2)
    (hM : (bs.map Body.m).sum ≠ 0) :
    (bs.map fun b => b.m • (sel b
        - vdiv ((bs.map fun b => b.m • sel b).sum)
            ((bs.map Body.m).sum))).sum = 0 := by
  have h : (fun b : Body => b.m • (sel b
      - vdiv ((bs.map fun b => b.m • sel b).sum) ((bs.map Body.m).sum)))
      = fun b : Body => b.m • sel b
        - b.m • vdiv ((bs.map fun b => b.m • sel b).sum)
            ((bs.map Body.m).sum) := by
    funext b
    rw [smul_sub]
  rw [h, list_sum_map_sub, list_sum_map_const_smul,
    smul_vdiv _ _ hM, sub_self]

theorem totalMass_pos (bs : List Body) (hne : bs ≠ [])
    (hm : ∀ b ∈ bs, 0 < b.m) : 0 < totalMass bs := by
  cases bs with
  | nil => exact absurd rfl hne
  | cons b l =>
    rw [totalMass, List.map_cons, List.sum_cons]
    have hb : 0 < b.m := hm b (List.mem_cons_self b l)
    have hl : 0 ≤ (l.map Body.m).sum := by
      refine List.sum_nonneg fun x hx => ?_
      obtain ⟨b2, hb2, he⟩ := List.mem_map.mp hx
      rw [← he]
      exact le_of_lt (hm b2 (List.mem_cons_of_mem b hb2))
    linarith

theorem weightedPos_to_com (bs : List Body)
    (hM : (bs.map Body.m).sum ≠ 0) :
    weightedPos (to_com_frame bs) = 0 := by
  rw [weightedPos, to_com_frame, List.map_map]
  have h : ((fun b : Body => b.m • b.r) ∘ fun b : Body =>
      { b with
        r := b.r - vdiv ((bs.map fun b => b.m • b.r).sum)
          ((bs.map Body.m).sum),
        v := b.v - vdiv ((bs.map fun b => b.m • b.v).sum)
          ((bs.map Body.m).sum) })
      = fun b : Body => b.m • (b.r
          - vdiv ((bs.map fun b => b.m • b.r).sum)
              ((bs.map Body.m).sum)) := rfl
  rw [h]
  exact sum_m_smul_sub_com bs Body.r hM

theorem totalMomentum_to_com (bs : List Body)
    (hM : (bs.map Body.m).sum ≠ 0) :
    totalMomentum (to_com_frame bs) = 0 := by
  rw [totalMomentum, to_com_frame, List.map_map]
  have h : ((fun b : Body => b.m • b.v) ∘ fun b : Body =>
      { b with
        r := b.r - vdiv ((bs.map fun b => b.m • b.r).sum)
          ((bs.map Body.m).sum),
        v := b.v - vdiv ((bs.map fun b => b.m • b.v).sum)
          ((bs.map Body.m).sum) })
      = fun b : Body => b.m • (b.v
          - vdiv ((bs.map fun b => b.m • b.v).sum)
              ((bs.map Body.m).sum)) := rfl
  rw [h]
  exact sum_m_smul_sub_com bs Body.v hM

/-- **C3.**  Immediately after the frame normalizer `to_com_frame` runs
on a non-empty system of positive total mass, the mass-weighted sums
`Σ mass_i • position_i` and `Σ mass_i • velocity_i` are exactly zero:
the center of mass sits at rest at the origin. -/
theorem to_com_frame_zeroes_com (bs : List Body) (hne : bs ≠ [])
    (hM : 0 < totalMass bs) :
    weightedPos (to_com_frame bs) = 0 ∧
    totalMomentum (to_com_frame bs) = 0 := by
  have hM0 : (bs.map Body.m).sum ≠ 0 := by
    rw [totalMass] at hM
    exact ne_of_gt hM
  exact ⟨weightedPos_to_com bs hM0, totalMomentum_to_com bs hM0⟩

/-- **C4.**  With the symmetric pairwise forces of the force evaluator
and positive masses, one integrator step conserves total linear momentum
`Σ mass_i • velocity_i` exactly (in exact arithmetic); consequently,
after `to_com_frame` the total momentum is exactly zero after any
sequence of steps. -/
theorem momentum_conserved (G EPS2 : ℝ) (bs : List Body)
    (hm : ∀ b ∈ bs, 0 < b.m) (hne : bs ≠ []) :
    (∀ dt : ℝ, totalMomentum (step_verlet G EPS2 bs dt) = totalMomentum bs)
    ∧ ∀ dts : List ℝ,
        totalMomentum (dts.foldl (step_verlet G EPS2) (to_com_frame bs))
          = 0 := by
  constructor
  · intro dt
    exact totalMomentum_step G EPS2 bs dt hm
  · have haux : ∀ (dts : List ℝ) (cs : List Body),
        (∀ b ∈ cs, 0 < b.m) → totalMomentum cs = 0 →
        totalMomentum (dts.foldl (step_verlet G EPS2) cs) = 0 := by
      intro dts
      induction dts with
      | nil => intro cs _ h0; exact h0
      | cons dt dts ih =>
        intro cs hcs h0
        rw [List.foldl_cons]
        refine ih (step_verlet G EPS2 cs dt) ?_ ?_
        · exact masses_pos_of_map_m _ _ (map_m_step G EPS2 cs dt) hcs
        · rw [totalMomentum_step G EPS2 cs dt hcs, h0]
    intro dts
    refine haux dts (to_com_frame bs) ?_ ?_
    · exact masses_pos_of_map_m _ _ (map_m_to_com_frame bs) hm
    · exact totalMomentum_to_com bs
        (ne_of_gt (by rw [← totalMass]; exact totalMass_pos bs hne hm))

theorem vdiv_zero (c : ℝ) : vdiv 0 c = (0 : Vec2) := by
  rw [vdiv]
  apply Prod.ext <;> simp

/-- **C6.**  `to_com_frame` is idempotent on any non-empty system of
positive total mass: a second application computes zero centroids and
subtracts nothing, leaving positions and velocities unchanged. -/
theorem to_com_frame_idempotent (bs : List Body) (hne : bs ≠ [])
    (hM : 0 < totalMass bs) :
    to_com_frame (to_com_frame bs) = to_com_frame bs := by
  have hM0 : (bs.map Body.m).sum ≠ 0 := by
    rw [totalMass] at hM
    exact ne_of_gt hM
  have hr := weightedPos_to_com bs hM0
  have hv := totalMomentum_to_com bs hM0
  rw [weightedPos] at hr
  rw [totalMomentum] at hv
  have hrw : to_com_frame (to_com_frame bs)
      = (to_com_frame bs).map fun b =>
        { b with
          r := b.r - vdiv (((to_com_frame bs).map fun b => b.m • b.r).sum)
            (((to_com_frame bs).map Body.m).sum),
          v := b.v - vdiv (((to_com_frame bs).map fun b => b.m • b.v).sum)
            (((to_com_frame bs).map Body.m).sum) } := rfl
  rw [hrw, hr, hv, vdiv_zero]
  have hid : (fun b : Body => { b with r := b.r - 0, v := b.v - 0 })
      = fun b : Body => b := by
    funext b
    exact Body.ext2 _ _ (sub_zero b.r) (sub_zero b.v) rfl rfl
  rw [hid, List.map_id']

/-- **C10.**  `to_com_frame` subtracts one common vector from all
positions and one from all velocities, so every pairwise difference of
positions and of velocities is unchanged, and the accelerations the
force evaluator computes after normalization equal those computed
before it. -/
theorem to_com_frame_preserves_relative_state (G EPS2 : ℝ) (bs : List Body)
    (hne : bs ≠ []) (hM : 0 < totalMass bs) :
    (∀ i j, i < bs.length → j < bs.length →
      (((to_com_frame bs).getD j default).r
          - ((to_com_frame bs).getD i default).r
        = (bs.getD j default).r - (bs.getD i default).r) ∧
      (((to_com_frame bs).getD j default).v
          - ((to_com_frame bs).getD i default).v
        = (bs.getD j default).v - (bs.getD i default).v)) ∧
    ∀ k, ((accelerations G EPS2 (to_com_frame bs)).getD k default).a
        = ((accelerations G EPS2 bs).getD k default).a := by
  have hgd : ∀ j, j < bs.length → (to_com_frame bs).getD j default
      = { r := (bs.getD j default).r
            - vdiv ((bs.map fun b => b.m • b.r).sum) ((bs.map Body.m).sum),
          v := (bs.getD j default).v
            - vdiv ((bs.map fun b => b.m • b.v).sum) ((bs.map Body.m).sum),
          m := (bs.getD j default).m,
          a := (bs.getD j default).a } := by
    intro j hj
    rw [to_com_frame, getD_map_body _ _ _ hj]
  have hpair : ∀ i j, i < bs.length → j < bs.length →
      (((to_com_frame bs).getD j default).r
          - ((to_com_frame bs).getD i default).r
        = (bs.getD j default).r - (bs.getD i default).r) ∧
      (((to_com_frame bs).getD j default).v
          - ((to_com_frame bs).getD i default).v
        = (bs.getD j default).v - (bs.getD i default).v) := by
    intro i j hi hj
    rw [hgd i hi, hgd j hj]
    constructor
    · dsimp only
      abel
    · dsimp only
      abel
  refine ⟨hpair, fun k => ?_⟩
  refine accelerations_a_congr G EPS2 _ _ ?_ ?_ ?_ k
  · rw [length_to_com_frame]
  · intro i j hi hj
    rw [length_to_com_frame] at hi hj
    exact (hpair i j hi hj).1
  · intro i hi
    rw [length_to_com_frame] at hi
    rw [hgd i hi]

/-! ## Two-body facts -/

theorem accelerations_two_body (G EPS2 : ℝ) (b1 b2 : Body) :
    ((accelerations G EPS2 [b1, b2]).getD 0 default).a
        = vdiv (fvec G EPS2 b1 b2) b1.m ∧
    ((accelerations G EPS2 [b1, b2]).getD 1 default).a
        = -vdiv (fvec G EPS2 b1 b2) b2.m := by
  constructor
  · show (0 : Vec2) + vdiv (fvec G EPS2 b1 b2) b1.m = _
    exact zero_add _
  · show (0 : Vec2) - vdiv (fvec G EPS2 b1 b2) b2.m = _
    exact zero_sub _

/-- **C5.**  In a two-body system the force evaluator's contributions
satisfy Newton's third law exactly:
`mass_1 • acceleration_1 = -(mass_2 • acceleration_2)`, both sides
deriving from the same force vector `fvec`. -/
theorem pairwise_force_antisymmetry (G EPS2 : ℝ) (b1 b2 : Body) :
    b1.m • ((accelerations G EPS2 [b1, b2]).getD 0 default).a
      = -(b2.m • ((accelerations G EPS2 [b1, b2]).getD 1 default).a) := by
  obtain ⟨h0, h1⟩ := accelerations_two_body G EPS2 b1 b2
  rw [h0, h1, smul_neg, neg_neg]
  by_cases hm1 : b1.m = 0
  · have hf : fvec G EPS2 b1 b2 = 0 := by
      rw [fvec, hm1]
      simp
    rw [hf, vdiv_zero, vdiv_zero, smul_zero, smul_zero]
  · by_cases hm2 : b2.m = 0
    · have hf : fvec G EPS2 b1 b2 = 0 := by
        rw [fvec, hm2]
        simp
      rw [hf, vdiv_zero, vdiv_zero, smul_zero, smul_zero]
    · rw [smul_vdiv _ _ hm1, smul_vdiv _ _ hm2]

theorem vmag_smul (c : ℝ) (u : Vec2) : vmag (c • u) = |c| * vmag u := by
  rw [vmag, vmag]
  have h1 : (c • u).1 = c * u.1 := rfl
  have h2 : (c • u).2 = c * u.2 := rfl
  rw [h1, h2]
  have h3 : c * u.1 * (c * u.1) + c * u.2 * (c * u.2)
      = c ^ 2 * (u.1 * u.1 + u.2 * u.2) := by ring
  rw [h3, Real.sqrt_mul (sq_nonneg c), Real.sqrt_sq_eq_abs]

theorem vmag_vdiv (u : Vec2) (m : ℝ) (hm : 0 < m) :
    vmag (vdiv u m) = vmag u / m := by
  rw [vmag, vdiv, vmag]
  dsimp only
  have h : u.1 / m * (u.1 / m) + u.2 / m * (u.2 / m)
      = (u.1 * u.1 + u.2 * u.2) / (m * m) := by
    field_simp
    try ring
  rw [h,
    Real.sqrt_div (add_nonneg (mul_self_nonneg u.1) (mul_self_nonneg u.2)),
    Real.sqrt_mul_self (le_of_lt hm)]

theorem vmag_le_sqrt_dist2 (EPS2 : ℝ) (hE : 0 < EPS2) (b1 b2 : Body) :
    vmag (b2.r - b1.r) ≤ Real.sqrt (dist2 EPS2 b1 b2) := by
  rw [vmag, dist2]
  exact Real.sqrt_le_sqrt (by linarith)

/-- **C8.**  With `EPS2 > 0` the softened squared distance is strictly
positive for every pair of bodies (so `1/sqrt(d2)` and the divisions are
defined, never dividing by zero), and the acceleration the force
evaluator writes for a two-body system is bounded by `G*m2/EPS2`, a
bound determined by `EPS2` alone — finite even at exactly coincident
positions. -/
theorem softening_no_blowup (G EPS2 : ℝ) (b1 b2 : Body) (hE : 0 < EPS2)
    (hG : 0 ≤ G) (hm1 : 0 < b1.m) (hm2 : 0 ≤ b2.m) :
    (∀ bi bj : Body, 0 < dist2 EPS2 bi bj
        ∧ Real.sqrt (dist2 EPS2 bi bj) ≠ 0) ∧
    vmag ((accelerations G EPS2 [b1, b2]).getD 0 default).a
      ≤ G * b2.m / EPS2 := by
  refine ⟨fun bi bj => ⟨dist2_pos EPS2 hE bi bj,
    ne_of_gt (Real.sqrt_pos.mpr (dist2_pos EPS2 hE bi bj))⟩, ?_⟩
  obtain ⟨h0, h1x⟩ := accelerations_two_body G EPS2 b1 b2
  rw [h0]
  have hd2 : 0 < dist2 EPS2 b1 b2 := dist2_pos EPS2 hE b1 b2
  have hs : 0 < Real.sqrt (dist2 EPS2 b1 b2) := Real.sqrt_pos.mpr hd2
  have hfv : fvec G EPS2 b1 b2
      = (G * b1.m * b2.m
          * (1 / Real.sqrt (dist2 EPS2 b1 b2) / dist2 EPS2 b1 b2))
        • (b2.r - b1.r) := rfl
  rw [hfv, vmag_vdiv _ _ hm1, vmag_smul]
  have hc : 0 ≤ G * b1.m * b2.m
      * (1 / Real.sqrt (dist2 EPS2 b1 b2) / dist2 EPS2 b1 b2) := by
    positivity
  rw [abs_of_nonneg hc]
  have hvd : vmag (b2.r - b1.r) ≤ Real.sqrt (dist2 EPS2 b1 b2) :=
    vmag_le_sqrt_dist2 EPS2 hE b1 b2
  have hvm0 : 0 ≤ vmag (b2.r - b1.r) := Real.sqrt_nonneg _
  have hEd : EPS2 ≤ dist2 EPS2 b1 b2 := by
    rw [dist2]
    nlinarith [mul_self_nonneg (b2.r - b1.r).1,
      mul_self_nonneg (b2.r - b1.r).2]
  have hkey : (1 / Real.sqrt (dist2 EPS2 b1 b2) / dist2 EPS2 b1 b2)
      * vmag (b2.r - b1.r) ≤ 1 / EPS2 := by
    have hk1 : (1 / Real.sqrt (dist2 EPS2 b1 b2) / dist2 EPS2 b1 b2)
        * vmag (b2.r - b1.r)
        ≤ (1 / Real.sqrt (dist2 EPS2 b1 b2) / dist2 EPS2 b1 b2)
          * Real.sqrt (dist2 EPS2 b1 b2) :=
      mul_le_mul_of_nonneg_left hvd (by positivity)
    have hk2 : (1 / Real.sqrt (dist2 EPS2 b1 b2) / dist2 EPS2 b1 b2)
        * Real.sqrt (dist2 EPS2 b1 b2) = 1 / dist2 EPS2 b1 b2 := by
      field_simp
    have hk3 : 1 / dist2 EPS2 b1 b2 ≤ 1 / EPS2 :=
      one_div_le_one_div_of_le hE hEd
    linarith
  calc G * b1.m * b2.m
        * (1 / Real.sqrt (dist2 EPS2 b1 b2) / dist2 EPS2 b1 b2)
        * vmag (b2.r - b1.r) / b1.m
      = G * b2.m * ((1 / Real.sqrt (dist2 EPS2 b1 b2) / dist2 EPS2 b1 b2)
          * vmag (b2.r - b1.r)) := by
        field_simp
        ring
    _ ≤ G * b2.m * (1 / EPS2) :=
        mul_le_mul_of_nonneg_left hkey (by positivity)
    _ = G * b2.m / EPS2 := by ring

/-- **C9 (counterexample).**  The claim says constructing a body with a
non-positive mass fails fast; the code performs no validation:
`Body.__init__` with mass `-1` succeeds and produces a body store entry
whose mass is the invalid value `-1 ≤ 0`. -/
theorem body_init_accepts_nonpositive_mass :
    (Body.init 0 0 0 0 (-1)).m = -1 ∧ (Body.init 0 0 0 0 (-1)).m ≤ 0 := by
  constructor
  · rfl
  · show (-1 : ℝ) ≤ 0
    norm_num

/-- **C9 (amended).**  Constructing a body with a non-positive mass does
not fail fast: `Body.__init__` performs no validation, so for every mass
`m ≤ 0` it silently produces a body store entry whose stored mass is
exactly the invalid value `m`. -/
theorem body_init_accepts_any_mass (x y vx vy m : ℝ) (hm : m ≤ 0) :
    (Body.init x y vx vy m).m = m ∧ (Body.init x y vx vy m).m ≤ 0 :=
  ⟨rfl, hm⟩

/-! ## Witnesses -/

theorem step_verlet_one_step_witness :
    (0 : ℝ) < 1 ∧ 0 < demoSys.length ∧
    ((step_verlet 1 1 demoSys 1).length = demoSys.length ∧
      (step_verlet 1 1 demoSys 1).getD 0 default =
        (let b := demoSys.getD 0 default
         let aOld := ((accelerations 1 1 demoSys).getD 0 default).a
         let v_half := b.v + ((0.5 : ℝ) * 1) • aOld
         let aNew := ((accelerations 1 1
             (driftBodies 1 1 1 demoSys)).getD 0 default).a
         { r := b.r + (1 : ℝ) • v_half, v := v_half + ((0.5 : ℝ) * 1) • aNew,
           m := b.m, a := aNew })) :=
  ⟨one_pos, by simp [demoSys],
    step_verlet_one_step 1 1 1 demoSys one_pos 0 (by simp [demoSys])⟩

theorem accelerations_pairwise_spec_witness :
    (0 : ℝ) < 1 ∧ 0 < demoSys.length ∧
    ((accelerations 1 1 demoSys).getD 0 default =
      { r := (demoSys.getD 0 default).r, v := (demoSys.getD 0 default).v,
        m := (demoSys.getD 0 default).m,
        a :=
          (∑ j ∈ Finset.Ico (0 + 1) demoSys.length,
            vdiv
              ((1 * (demoSys.getD 0 default).m * (demoSys.getD j default).m
                  / Real.sqrt
                      (dist2 1 (demoSys.getD 0 default)
                        (demoSys.getD j default) ^ 3))
                • ((demoSys.getD j default).r - (demoSys.getD 0 default).r))
              (demoSys.getD 0 default).m)
          - ∑ i ∈ Finset.range 0,
              vdiv
                ((1 * (demoSys.getD i default).m * (demoSys.getD 0 default).m
                    / Real.sqrt
                        (dist2 1 (demoSys.getD i default)
                          (demoSys.getD 0 default) ^ 3))
                  • ((demoSys.getD 0 default).r - (demoSys.getD i default).r))
                (demoSys.getD 0 default).m } ∧
      ((accelerations 1 1 (demoSys.map fun b =>
          { b with a := ((0 : ℝ), (0 : ℝ)) })).getD 0 default).a
        = ((accelerations 1 1 demoSys).getD 0 default).a) :=
  ⟨one_pos, by simp [demoSys],
    accelerations_pairwise_spec 1 1 demoSys 0
      (fun _ => ((0 : ℝ), (0 : ℝ))) one_pos (by simp [demoSys])⟩

theorem to_com_frame_zeroes_com_witness :
    demoSys ≠ [] ∧ 0 < totalMass demoSys ∧
    (weightedPos (to_com_frame demoSys) = 0 ∧
      totalMomentum (to_com_frame demoSys) = 0) :=
  ⟨by simp [demoSys], by norm_num [totalMass, demoSys, demoBody, Body.init],
    to_com_frame_zeroes_com demoSys (by simp [demoSys])
      (by norm_num [totalMass, demoSys, demoBody, Body.init])⟩

theorem momentum_conserved_witness :
    (∀ b ∈ demoSys, 0 < b.m) ∧ demoSys ≠ [] ∧
    ((∀ dt : ℝ, totalMomentum (step_verlet 1 1 demoSys dt)
        = totalMomentum demoSys)
      ∧ ∀ dts : List ℝ,
          totalMomentum (dts.foldl (step_verlet 1 1) (to_com_frame demoSys))
            = 0) :=
  ⟨by
    intro b hb
    rw [demoSys, List.mem_singleton] at hb
    subst hb
    norm_num [demoBody, Body.init],
   by simp [demoSys],
   momentum_conserved 1 1 demoSys
     (by
       intro b hb
       rw [demoSys, List.mem_singleton] at hb
       subst hb
       norm_num [demoBody, Body.init])
     (by simp [demoSys])⟩

theorem to_com_frame_idempotent_witness :
    demoSys ≠ [] ∧ 0 < totalMass demoSys ∧
    to_com_frame (to_com_frame demoSys) = to_com_frame demoSys :=
  ⟨by simp [demoSys], by norm_num [totalMass, demoSys, demoBody, Body.init],
    to_com_frame_idempotent demoSys (by simp [demoSys])
      (by norm_num [totalMass, demoSys, demoBody, Body.init])⟩

theorem softening_no_blowup_witness :
    (0 : ℝ) < 1 ∧ (0 : ℝ) ≤ 1 ∧ 0 < demoBody.m ∧ 0 ≤ demoBody.m ∧
    ((∀ bi bj : Body, 0 < dist2 1 bi bj
        ∧ Real.sqrt (dist2 1 bi bj) ≠ 0) ∧
      vmag ((accelerations 1 1 [demoBody, demoBody]).getD 0 default).a
        ≤ 1 * demoBody.m / 1) :=
  ⟨one_pos, zero_le_one, by norm_num [demoBody, Body.init],
    by norm_num [demoBody, Body.init],
    softening_no_blowup 1 1 demoBody demoBody one_pos zero_le_one
      (by norm_num [demoBody, Body.init])
      (by norm_num [demoBody, Body.init])⟩

theorem to_com_frame_preserves_relative_state_witness :
    demoSys ≠ [] ∧ 0 < totalMass demoSys ∧
    ((∀ i j, i < demoSys.length → j < demoSys.length →
      (((to_com_frame demoSys).getD j default).r
          - ((to_com_frame demoSys).getD i default).r
        = (demoSys.getD j default).r - (demoSys.getD i default).r) ∧
      (((to_com_frame demoSys).getD j default).v
          - ((to_com_frame demoSys).getD i default).v
        = (demoSys.getD j default).v - (demoSys.getD i default).v)) ∧
    ∀ k, ((accelerations 1 1 (to_com_frame demoSys)).getD k default).a
        = ((accelerations 1 1 demoSys).getD k default).a) :=
  ⟨by simp [demoSys], by norm_num [totalMass, demoSys, demoBody, Body.init],
    to_com_frame_preserves_relative_state 1 1 demoSys (by simp [demoSys])
      (by norm_num [totalMass, demoSys, demoBody, Body.init])⟩

theorem body_init_accepts_any_mass_witness :
    (-1 : ℝ) ≤ 0 ∧
    ((Body.init 0 0 0 0 (-1)).m = -1 ∧ (Body.init 0 0 0 0 (-1)).m ≤ 0) :=
  ⟨by norm_num, body_init_accepts_any_mass 0 0 0 0 (-1) (by norm_num)⟩
